import Mathlib

/-
Verification development for the kprobe-coverage kernel module
(src/src/kernel/kmod.c).  The C code keeps every coverage entry on exactly
one of three intrusive lists (deferred / pending / hit) and moves entries
between them in response to control writes, module arrive/depart
notifications, probe fires (completed by a per-entry work item) and
readout.  The model below is a shallow embedding: each C function becomes
a pure Lean function on an explicit state, machine integers are Nat with
explicit reduction mod 2^32 / 2^64, and external outcomes (find_module,
vzalloc, register_kprobe, enable_kprobe) are oracle parameters.  Ghost
fields (freed, unreg, completions, nullDeref) log events the C performs
through vfree / unregister_kprobe / the work item, so that lifecycle
claims can be stated; they never influence the modelled list contents.
-/

def U64 : Nat := 2 ^ 64

/-- Bitwise xor of two naturals below 2^32, computed with 32 fuel steps so
that the kernel can evaluate it by plain div/mod arithmetic. -/
def xor32Aux : Nat → Nat → Nat → Nat
  | 0, _, _ => 0
  | fuel + 1, a, b =>
      (if a % 2 = b % 2 then 0 else 1) + 2 * xor32Aux fuel (a / 2) (b / 2)

def xor32 (a b : Nat) : Nat := xor32Aux 32 a b

/-- The little-endian CRC-32 polynomial used by the kernel's crc32 (crc32_le). -/
def CRC32_POLY_LE : Nat := 0xEDB88320

/-- One bit step of the LSB-first CRC-32. -/
def crc32Step (crc : Nat) : Nat :=
  if crc % 2 = 1 then xor32 (crc / 2) CRC32_POLY_LE else crc / 2

/-- Fold one byte into the CRC: xor it in, then run eight bit steps.
Mathematically equal to the kernel's table-driven crc32_le. -/
def crc32Byte (crc b : Nat) : Nat :=
  crc32Step (crc32Step (crc32Step (crc32Step
    (crc32Step (crc32Step (crc32Step (crc32Step (xor32 crc b))))))))

/-- crc32(seed, data, len): crc32_le over the bytes of the name. -/
def crc32 (seed : Nat) (data : List Char) : Nat :=
  data.foldl (fun crc c => crc32Byte crc c.toNat) seed

/-- get_name_checksum: 0 for the kernel itself (NULL name), otherwise the
crc32 of the module name. -/
def get_name_checksum (name : Option String) : Nat :=
  match name with
  | none => 0
  | some n => crc32 0 n.data

/-- One kprobe_coverage_entry: the kprobe's instrumented address (kp.addr),
the module-name checksum and the recorded base address.  `eid` is a ghost
identity (the allocation number) used to track one record across moves;
the C code identifies the record by its heap address instead. -/
structure Entry where
  eid : Nat
  module_checksum : Nat
  base_addr : Nat
  kp_addr : Nat
  deriving DecidableEq

/-- The kprobe_coverage state: the three lists, plus ghost logs.
`nextId` numbers allocations; `freed` logs eids passed to kpc_free_entry
(vfree); `unreg` logs eids passed to unregister_kprobe; `completions`
logs eids for which the fire-completion work item actually ran;
`nullDeref` is set when the C code dereferences a NULL entry pointer
(the missing allocation-failure check in kpc_add_probe). -/
structure KPC where
  deferred : List Entry
  pending : List Entry
  hit : List Entry
  nextId : Nat
  freed : List Nat
  unreg : List Nat
  completions : List Nat
  nullDeref : Bool

/-- kpc_init / module init: all three lists empty. -/
def kpc_init : KPC :=
  { deferred := [], pending := [], hit := [], nextId := 0,
    freed := [], unreg := [], completions := [], nullDeref := false }

/-- kpc_free_entry: vfree(entry).  Note the C helper only frees; it does
NOT unlink the entry from whatever list it may still be on. -/
def kpc_free_entry (e : Entry) (s : KPC) : KPC :=
  { s with freed := s.freed ++ [e.eid] }

/-- kpc_new_entry: allocate and fill an entry.  base_addr is the module's
load base when the module is present (mod->module_core), else 0; kp.addr
is base_addr + where, in unsigned long arithmetic. -/
def kpc_new_entry (nextId : Nat) (module_name : Option String)
    (module : Option Nat) (off : Nat) : Entry :=
  let base := (module.getD 0) % U64
  { eid := nextId,
    module_checksum := get_name_checksum module_name,
    base_addr := base,
    kp_addr := (base + off) % U64 }

/-- kpc_enable_probe: register_kprobe, then list_add onto pending, then
enable_kprobe.  Returns the updated state and whether the whole sequence
succeeded.  Faithful to the C: when enable_kprobe fails the entry is
unregistered but is NOT removed from the pending list before the caller
frees it. -/
def kpc_enable_probe (regOk enableOk : Bool) (e : Entry) (s : KPC) :
    KPC × Bool :=
  if !regOk then (s, false)
  else
    let s1 := { s with pending := e :: s.pending }
    if !enableOk then ({ s1 with unreg := s1.unreg ++ [e.eid] }, false)
    else (s1, true)

/-- kpc_defer_probe: list_add onto the deferred list. -/
def kpc_defer_probe (e : Entry) (s : KPC) : KPC :=
  { s with deferred := e :: s.deferred }

/-- kpc_add_probe: look the module up (only when a name was given), make a
new entry, defer it when the named module is absent, otherwise arm it;
free it if arming failed.  `modBase` is the find_module oracle (some base
iff the module is loaded); `allocOk` is the vzalloc oracle.  Faithful to
the C: there is no NULL check after kpc_new_entry, so an allocation
failure flows the NULL entry straight into kpc_defer_probe or
kpc_enable_probe, which dereference it — modelled by the nullDeref flag
(an actual kernel would oops; the lists are left as they were). -/
def kpc_add_probe (module_name : Option String) (modBase : Option Nat)
    (off : Nat) (allocOk regOk enableOk : Bool) (s : KPC) : KPC :=
  let module := if module_name.isSome then modBase else none
  if !allocOk then
    { s with nullDeref := true }
  else
    let entry := kpc_new_entry s.nextId module_name module off
    let s1 := { s with nextId := s.nextId + 1 }
    if module_name.isSome && module.isNone then
      kpc_defer_probe entry s1
    else
      let pr := kpc_enable_probe regOk enableOk entry s1
      if pr.2 then pr.1 else kpc_free_entry entry pr.1

/-- Remove the first entry with the given eid from a list (list_del of
that one node), returning it and the remaining list. -/
def removeFirst (eid : Nat) : List Entry → Option Entry × List Entry
  | [] => (none, [])
  | e :: rest =>
      if e.eid = eid then (some e, rest)
      else
        let pr := removeFirst eid rest
        (pr.1, e :: pr.2)

/-- kpc_probe_work: the per-entry work item scheduled by the fire
callback.  Under the registrar contract a fire (and hence this work) is
only ever delivered for an armed — i.e. pending — record, so an eid with
no pending record is a stutter.  The work unregisters the kprobe, unlinks
the entry from pending and appends it at the TAIL of the hit list, then
wakes the reader. -/
def kpc_probe_work (eid : Nat) (s : KPC) : KPC :=
  match removeFirst eid s.pending with
  | (none, _) => s
  | (some e, pending') =>
      { s with pending := pending',
               hit := s.hit ++ [e],
               unreg := s.unreg ++ [eid],
               completions := s.completions ++ [eid] }

/-- kpc_clear_list: walk a list, optionally unregister each entry, unlink
it and free it.  The caller resets the list head afterwards. -/
def kpc_clear_list (do_unregister : Bool) : List Entry → KPC → KPC
  | [], s => s
  | e :: rest, s =>
      kpc_clear_list do_unregister rest
        { s with
            unreg := if do_unregister then s.unreg ++ [e.eid] else s.unreg,
            freed := s.freed ++ [e.eid] }

/-- kpc_clear: free everything — deferred without unregistering, then the
hit list and the pending list with unregistering, reinitialising each
list head. -/
def kpc_clear (s : KPC) : KPC :=
  let s1 := kpc_clear_list false s.deferred { s with deferred := [] }
  let s2 := kpc_clear_list true s1.hit { s1 with hit := [] }
  kpc_clear_list true s2.pending { s2 with pending := [] }

/-- kpc_handle_going_module: for every pending entry whose checksum
matches the departing module, unregister it and unlink it from pending.
Faithful to the C: the unlinked entries are NOT freed. -/
def kpc_handle_going_module (name : String) (s : KPC) : KPC :=
  let cks := get_name_checksum (some name)
  { s with
      pending := s.pending.filter (fun e => e.module_checksum ≠ cks),
      unreg := s.unreg ++
        ((s.pending.filter (fun e => e.module_checksum = cks)).map Entry.eid) }

/-- The loop body of kpc_handle_coming_module over the deferred entries:
matching entries are unlinked, rebased (base_addr := base, kp.addr +=
base) and armed (freed if arming fails, which can again leave a freed
entry on pending); non-matching entries stay on deferred in order.
`arm` gives the register/enable oracle per entry. -/
def comingGo (cks base : Nat) (arm : Nat → Bool × Bool) :
    List Entry → KPC → KPC
  | [], s => s
  | e :: rest, s =>
      if e.module_checksum = cks then
        let e' := { e with base_addr := base % U64,
                           kp_addr := (e.kp_addr + base % U64) % U64 }
        let pr := kpc_enable_probe (arm e.eid).1 (arm e.eid).2 e' s
        comingGo cks base arm rest
          (if pr.2 then pr.1 else kpc_free_entry e' pr.1)
      else
        comingGo cks base arm rest
          { s with deferred := s.deferred ++ [e] }

/-- kpc_handle_coming_module: drain the deferred list, re-arming every
entry whose checksum matches the arriving module's name. -/
def kpc_handle_coming_module (name : String) (base : Nat)
    (arm : Nat → Bool × Bool) (s : KPC) : KPC :=
  comingGo (get_name_checksum (some name)) base arm
    s.deferred { s with deferred := [] }

/-- kpc_unlink_next: block until the hit list is non-empty (none models
an interrupted wait / nothing available), then pop the HEAD. -/
def kpc_unlink_next (s : KPC) : Option Entry × KPC :=
  match s.hit with
  | [] => (none, s)
  | e :: rest => (some e, { s with hit := rest })

/-- kpc_show_read: take the next hit entry and report its checksum and
the RELATIVE offset kp.addr - base_addr (unsigned long subtraction),
then free the entry.  none models a read returning 0 bytes. -/
def kpc_show_read (s : KPC) : Option (Nat × Nat) × KPC :=
  match kpc_unlink_next s with
  | (none, s') => (none, s')
  | (some e, s') =>
      (some (e.module_checksum, (e.kp_addr + U64 - e.base_addr) % U64),
       kpc_free_entry e s')

/-- The events that drive the state machine, with their environment
oracles. -/
inductive Event where
  | add (module_name : Option String) (modBase : Option Nat) (off : Nat)
        (allocOk regOk enableOk : Bool)
  | coming (name : String) (base : Nat) (arm : Nat → Bool × Bool)
  | going (name : String)
  | fire (eid : Nat)
  | consume
  | clear

def step (s : KPC) : Event → KPC
  | .add mn mb off a r en => kpc_add_probe mn mb off a r en s
  | .coming n b arm => kpc_handle_coming_module n b arm s
  | .going n => kpc_handle_going_module n s
  | .fire eid => kpc_probe_work eid s
  | .consume => (kpc_show_read s).2
  | .clear => kpc_clear s

def run (es : List Event) : KPC := es.foldl step kpc_init

/-- The primitive operations a handler body performs, to state where the
unregister / list surgery happens. -/
inductive PrimOp where
  | scheduleWork
  | unregisterKprobe
  | listDel
  | listAddTail
  | wakeUp
  deriving DecidableEq

/-- kpc_pre_handler's body: it only schedules the entry's work item. -/
def kpc_pre_handler_ops : List PrimOp := [PrimOp.scheduleWork]

/-- kpc_probe_work's body: unregister, unlink from pending, append to the
hit tail, wake the listener. -/
def kpc_probe_work_ops : List PrimOp :=
  [PrimOp.unregisterKprobe, PrimOp.listDel, PrimOp.listAddTail, PrimOp.wakeUp]

/-
The control-write parser (kpc_control_write).  The write buffer is split
by strsep on "\r\n"; the loop breaks on an empty token or when strsep has
exhausted the buffer (p == NULL, i.e. the current token was the
unterminated trailing one).  A "clear" line clears and breaks; otherwise
the line is split at the first ':' into module name and address text and
the address is parsed by simple_strtoul(.., 16); a line whose address
text does not parse completely is skipped.  We model the loop as a
function from the buffer to the list of engine commands it issues.
-/

/-- The strsep separators used by kpc_control_write. -/
def isSep (c : Char) : Bool := c = '\r' || c = '\n'

/-- All strsep tokens of the buffer, in order; the LAST element is the
trailing token after the final separator (the one for which strsep
leaves p == NULL). -/
def splitTokens : List Char → List (List Char)
  | [] => [[]]
  | c :: rest =>
      if isSep c then [] :: splitTokens rest
      else
        match splitTokens rest with
        | t :: ts => (c :: t) :: ts
        | [] => [[c]]

/-- isxdigit with the digit's value. -/
def hexDigitVal (c : Char) : Option Nat :=
  if '0' ≤ c ∧ c ≤ '9' then some (c.toNat - '0'.toNat)
  else if 'a' ≤ c ∧ c ≤ 'f' then some (c.toNat - 'a'.toNat + 10)
  else if 'A' ≤ c ∧ c ≤ 'F' then some (c.toNat - 'A'.toNat + 10)
  else none

/-- _parse_integer for base 16: consume the maximal run of hex digits,
accumulating in unsigned long long arithmetic; returns the value and the
number of characters consumed. -/
def parseHexRun : List Char → Nat → Nat × Nat
  | [], acc => (acc, 0)
  | c :: rest, acc =>
      match hexDigitVal c with
      | none => (acc, 0)
      | some d =>
          let pr := parseHexRun rest ((acc * 16 + d) % U64)
          (pr.1, pr.2 + 1)

/-- simple_strtoul(s, &endp, 16): skip a leading "0x"/"0X" only when a
hex digit follows it (_parse_integer_fixup_radix), then parse the digit
run.  Returns the value and the total number of characters consumed, so
endp == s + consumed. -/
def simple_strtoul (s : List Char) : Nat × Nat :=
  match s with
  | '0' :: x :: c :: rest =>
      if (x = 'x' ∨ x = 'X') ∧ (hexDigitVal c).isSome then
        let pr := parseHexRun (c :: rest) 0
        (pr.1, pr.2 + 2)
      else parseHexRun ('0' :: x :: c :: rest) 0
  | _ => parseHexRun s 0

/-- strstr(line, ":"): split at the first colon, if any. -/
def splitColon : List Char → Option (List Char × List Char)
  | [] => none
  | c :: rest =>
      if c = ':' then some ([], rest)
      else (splitColon rest).map (fun pr => (c :: pr.1, pr.2))

/-- A command the control-write loop issues to the engine. -/
inductive Cmd where
  | clear
  | add (module : Option String) (addr : Nat)
  deriving DecidableEq

/-- Parse one non-"clear" line: optional module name before the first
colon, then the hex address, which must be non-empty and consume the
whole remaining text (endp != addr_p and *endp == 0); otherwise the line
is skipped (none). -/
def parseLine (t : List Char) : Option Cmd :=
  let mp :=
    match splitColon t with
    | some pr => (some (String.mk pr.1), pr.2)
    | none => ((none : Option String), t)
  let pr := simple_strtoul mp.2
  if pr.2 ≠ 0 ∧ pr.2 = mp.2.length then some (Cmd.add mp.1 pr.1)
  else none

/-- The control-write loop over the strsep tokens: the sole trailing
token is never processed (p == NULL breaks first), an empty token breaks,
a "clear" token clears and breaks, a parsed line adds, a malformed line
is skipped. -/
def processTokens : List (List Char) → List Cmd
  | [] => []
  | [_] => []
  | t :: rest =>
      if t = [] then []
      else if t = "clear".data then [Cmd.clear]
      else
        match parseLine t with
        | some c => c :: processTokens rest
        | none => processTokens rest

/-- kpc_control_write, reduced to the commands it issues for a given
write buffer (the vzalloc/copy_from_user plumbing and the byte-count
bookkeeping are I/O and do not affect which commands run). -/
def kpc_control_write_cmds (buf : List Char) : List Cmd :=
  processTokens (splitTokens buf)

/-- The ghost identities of the entries on a list. -/
def idsOf (l : List Entry) : List Nat := l.map Entry.eid

/-- The identities reachable from the three collections. -/
def allIds (s : KPC) : List Nat :=
  idsOf s.deferred ++ idsOf s.pending ++ idsOf s.hit

/-- The reachability/at-most-once invariant, generalised over a list `l`
of entries currently unlinked and held by an in-progress traversal (the
deferred entries being drained by kpc_handle_coming_module); `l = []` at
every quiescent point.  Every reachable or in-flight identity is below
the allocation counter and appears once; an identity whose completion
work has run is never again deferred, pending or in flight, and the
completion log has no duplicates. -/
structure InvGo (l : List Entry) (s : KPC) : Prop where
  nodup : (idsOf l ++ allIds s).Nodup
  bounded : ∀ i ∈ idsOf l ++ allIds s, i < s.nextId
  compBound : ∀ i ∈ s.completions, i < s.nextId
  compFresh : ∀ i ∈ s.completions,
    i ∉ idsOf l ∧ i ∉ idsOf s.deferred ∧ i ∉ idsOf s.pending
  compNodup : s.completions.Nodup

/-- The quiescent-point invariant. -/
def KpcInv (s : KPC) : Prop := InvGo [] s

/-- Sample entries and state used to witness the hypothesis-bearing
theorems at concrete inputs. -/
def entryA : Entry :=
  { eid := 0, module_checksum := 1, base_addr := 4096, kp_addr := 4112 }

def entryB : Entry :=
  { eid := 1, module_checksum := 2, base_addr := 8192, kp_addr := 8224 }

def sampleState : KPC :=
  { deferred := [], pending := [entryA, entryB], hit := [], nextId := 2,
    freed := [], unreg := [], completions := [], nullDeref := false }

def entryC : Entry :=
  { eid := 2, module_checksum := 3, base_addr := 0, kp_addr := 7 }

def sampleFullState : KPC :=
  { deferred := [entryA], pending := [entryB], hit := [entryC], nextId := 3,
    freed := [], unreg := [2], completions := [2], nullDeref := false }

/-
Helper lemmas about removeFirst and invariant preservation.
-/

theorem removeFirst_perm {i : Nat} {l : List Entry} :
    ∀ {e : Entry} {l' : List Entry},
      removeFirst i l = (some e, l') → l.Perm (e :: l') := by
  induction l with
  | nil => intro e l' h; simp [removeFirst] at h
  | cons x rest ih =>
    intro e l' h
    rw [removeFirst] at h
    by_cases hx : x.eid = i
    · rw [if_pos hx] at h
      injection h with h1 h2
      injection h1 with h1
      subst h1; subst h2
      exact List.Perm.refl _
    · rw [if_neg hx] at h
      rcases hpr : removeFirst i rest with ⟨o, l₂⟩
      rw [hpr] at h
      injection h with h1 h2
      subst h1
      subst h2
      exact ((ih hpr).cons x).trans (List.Perm.swap e x l₂)

theorem removeFirst_eid {i : Nat} {l : List Entry} :
    ∀ {e : Entry} {l' : List Entry},
      removeFirst i l = (some e, l') → e.eid = i := by
  induction l with
  | nil => intro e l' h; simp [removeFirst] at h
  | cons x rest ih =>
    intro e l' h
    rw [removeFirst] at h
    by_cases hx : x.eid = i
    · rw [if_pos hx] at h
      injection h with h1 h2
      injection h1 with h1
      subst h1; exact hx
    · rw [if_neg hx] at h
      rcases hpr : removeFirst i rest with ⟨o, l₂⟩
      rw [hpr] at h
      injection h with h1 h2
      subst h1
      exact ih hpr

theorem removeFirst_sublist (i : Nat) (l : List Entry) :
    (removeFirst i l).2.Sublist l := by
  induction l with
  | nil => simp [removeFirst]
  | cons x rest ih =>
    rw [removeFirst]
    by_cases hx : x.eid = i
    · rw [if_pos hx]
      exact List.sublist_cons_self x rest
    · rw [if_neg hx]
      exact ih.cons₂ x

theorem eid_injOn {l : List Entry} (h : (idsOf l).Nodup) :
    ∀ {x y : Entry}, x ∈ l → y ∈ l → x.eid = y.eid → x = y := by
  induction l with
  | nil => intro x y hx; simp at hx
  | cons a rest ih =>
    intro x y hx hy hxy
    have hn : a.eid ∉ idsOf rest ∧ (idsOf rest).Nodup := by
      simpa [idsOf] using h
    rcases List.mem_cons.1 hx with hxa | hxr
    · rcases List.mem_cons.1 hy with hya | hyr
      · rw [hxa, hya]
      · exfalso
        exact hn.1 (hxa ▸ hxy ▸ List.mem_map_of_mem Entry.eid hyr)
    · rcases List.mem_cons.1 hy with hya | hyr
      · exfalso
        exact hn.1 (hya ▸ hxy ▸ List.mem_map_of_mem Entry.eid hxr)
      · exact ih hn.2 hxr hyr hxy

theorem removeFirst_of_mem {l : List Entry} {a : Entry}
    (hn : (idsOf l).Nodup) (ha : a ∈ l) :
    (removeFirst a.eid l).1 = some a := by
  induction l with
  | nil => simp at ha
  | cons x rest ih =>
    rw [removeFirst]
    by_cases hx : x.eid = a.eid
    · rw [if_pos hx]
      have : x = a := eid_injOn hn (List.mem_cons_self x rest) ha hx
      rw [this]
    · rw [if_neg hx]
      have har : a ∈ rest := by
        rcases List.mem_cons.1 ha with h1 | h1
        · exact absurd (show x.eid = a.eid by rw [h1]) hx
        · exact h1
      have hn' : (idsOf rest).Nodup := by
        have := (by simpa [idsOf] using hn :
          x.eid ∉ idsOf rest ∧ (idsOf rest).Nodup)
        exact this.2
      exact ih hn' har

theorem invGo_congr {l : List Entry} {s₁ s₂ : KPC}
    (hd : s₂.deferred = s₁.deferred) (hp : s₂.pending = s₁.pending)
    (hh : s₂.hit = s₁.hit) (hn : s₁.nextId ≤ s₂.nextId)
    (hc : s₂.completions = s₁.completions) (h : InvGo l s₁) : InvGo l s₂ := by
  have ha : allIds s₂ = allIds s₁ := by rw [allIds, allIds, hd, hp, hh]
  refine ⟨ha ▸ h.nodup, ?_, ?_, ?_, hc ▸ h.compNodup⟩
  · intro i hi
    exact lt_of_lt_of_le (h.bounded i (ha ▸ hi)) hn
  · intro i hi
    exact lt_of_lt_of_le (h.compBound i (hc ▸ hi)) hn
  · intro i hi
    rw [hd, hp]
    exact h.compFresh i (hc ▸ hi)

theorem invGo_weaken {e : Entry} {l : List Entry} {s : KPC}
    (h : InvGo (e :: l) s) : InvGo l s := by
  have key : idsOf (e :: l) ++ allIds s = e.eid :: (idsOf l ++ allIds s) := by
    simp [idsOf]
  refine ⟨?_, ?_, h.compBound, ?_, h.compNodup⟩
  · exact (key ▸ h.nodup).of_cons
  · intro i hi
    exact h.bounded i (by rw [key]; exact List.mem_cons_of_mem _ hi)
  · intro i hi
    rcases h.compFresh i hi with ⟨h1, h2, h3⟩
    refine ⟨?_, h2, h3⟩
    intro hil
    exact h1 (by simp [idsOf] at hil ⊢; exact Or.inr hil)

/-- A permutation pulling an element out of the middle of a triple
append. -/
theorem perm_pull (a : Nat) (l₁ l₂ l₃ : List Nat) :
    (l₁ ++ (l₂ ++ a :: l₃)).Perm (a :: (l₁ ++ (l₂ ++ l₃))) :=
  (List.Perm.append_left l₁ List.perm_middle).trans List.perm_middle

theorem kpc_enable_probe_ff (en : Bool) (e : Entry) (s : KPC) :
    kpc_enable_probe false en e s = (s, false) := rfl

theorem kpc_enable_probe_tt (e : Entry) (s : KPC) :
    kpc_enable_probe true true e s = ({ s with pending := e :: s.pending }, true) := rfl

theorem kpc_enable_probe_tf (e : Entry) (s : KPC) :
    kpc_enable_probe true false e s =
      ({ s with pending := e :: s.pending,
                unreg := s.unreg ++ [e.eid] }, false) := rfl

/-- Inserting a freshly allocated entry (eid = nextId) at the head of
either the deferred or the pending list, bumping the allocation counter,
preserves the invariant. -/
theorem invGo_insert_fresh {s s' : KPC} (h : KpcInv s) (e : Entry)
    (he : e.eid = s.nextId)
    (hcase : (s'.deferred = e :: s.deferred ∧ s'.pending = s.pending) ∨
             (s'.deferred = s.deferred ∧ s'.pending = e :: s.pending))
    (hh : s'.hit = s.hit) (hn : s'.nextId = s.nextId + 1)
    (hc : s'.completions = s.completions) : KpcInv s' := by
  have hperm : (allIds s').Perm (e.eid :: allIds s) := by
    rcases hcase with ⟨h1, h2⟩ | ⟨h1, h2⟩
    · rw [allIds, allIds, h1, h2, hh]
      simp only [idsOf, List.map_cons, List.cons_append, List.append_assoc]
      exact List.Perm.refl _
    · rw [allIds, allIds, h1, h2, hh]
      simp only [idsOf, List.map_cons, List.cons_append, List.append_assoc]
      exact List.perm_middle
  have hfreshNot : e.eid ∉ allIds s := by
    intro hmem
    exact absurd (h.bounded e.eid hmem) (he ▸ lt_irrefl s.nextId)
  refine ⟨?_, ?_, ?_, ?_, hc ▸ h.compNodup⟩
  · exact (List.Perm.nodup_iff hperm).2 (List.Nodup.cons hfreshNot h.nodup)
  · intro i hi
    rcases List.mem_cons.1 (hperm.mem_iff.1 hi) with h1 | h1
    · rw [hn, h1, he]; exact Nat.lt_succ_self _
    · rw [hn]; exact Nat.lt_succ_of_lt (h.bounded i h1)
  · intro i hi
    rw [hn]
    exact Nat.lt_succ_of_lt (h.compBound i (hc ▸ hi))
  · intro i hi
    have hlt : i < s.nextId := h.compBound i (hc ▸ hi)
    have hne : i ≠ e.eid := by
      intro q; rw [q, he] at hlt; exact lt_irrefl _ hlt
    rcases h.compFresh i (hc ▸ hi) with ⟨_, h2, h3⟩
    rcases hcase with ⟨h1', h2'⟩ | ⟨h1', h2'⟩
    · refine ⟨by simp [idsOf], ?_, by rw [h2']; exact h3⟩
      rw [h1']
      simp only [idsOf, List.map_cons, List.mem_cons]
      rintro (q | q)
      · exact hne q
      · exact h2 q
    · refine ⟨by simp [idsOf], by rw [h1']; exact h2, ?_⟩
      rw [h2']
      simp only [idsOf, List.map_cons, List.mem_cons]
      rintro (q | q)
      · exact hne q
      · exact h3 q

theorem inv_kpc_add_probe (mn : Option String) (mb : Option Nat) (off : Nat)
    (a r en : Bool) {s : KPC} (h : KpcInv s) :
    KpcInv (kpc_add_probe mn mb off a r en s) := by
  cases a with
  | false =>
    refine invGo_congr ?_ ?_ ?_ ?_ ?_ h
    · rfl
    · rfl
    · rfl
    · exact le_refl s.nextId
    · rfl
  | true =>
    cases mn with
    | none =>
      cases r with
      | false =>
        refine invGo_congr ?_ ?_ ?_ ?_ ?_ h
        · rfl
        · rfl
        · rfl
        · exact Nat.le_succ s.nextId
        · rfl
      | true =>
        cases en with
        | true =>
          exact invGo_insert_fresh h (kpc_new_entry s.nextId none none off)
            rfl (Or.inr ⟨rfl, rfl⟩) rfl rfl rfl
        | false =>
          exact invGo_insert_fresh h (kpc_new_entry s.nextId none none off)
            rfl (Or.inr ⟨rfl, rfl⟩) rfl rfl rfl
    | some n =>
      cases mb with
      | none =>
        exact invGo_insert_fresh h (kpc_new_entry s.nextId (some n) none off)
          rfl (Or.inl ⟨rfl, rfl⟩) rfl rfl rfl
      | some b =>
        cases r with
        | false =>
          refine invGo_congr ?_ ?_ ?_ ?_ ?_ h
          · rfl
          · rfl
          · rfl
          · exact Nat.le_succ s.nextId
          · rfl
        | true =>
          cases en with
          | true =>
            exact invGo_insert_fresh h
              (kpc_new_entry s.nextId (some n) (some b) off)
              rfl (Or.inr ⟨rfl, rfl⟩) rfl rfl rfl
          | false =>
            exact invGo_insert_fresh h
              (kpc_new_entry s.nextId (some n) (some b) off)
              rfl (Or.inr ⟨rfl, rfl⟩) rfl rfl rfl

theorem mem_allIds_pending {s : KPC} {i : Nat}
    (h : i ∈ idsOf s.pending) : i ∈ allIds s :=
  List.mem_append_left _ (List.mem_append_right _ h)

/-- Shrinking each collection (id-wise) and not lowering the allocation
counter preserves the invariant. -/
theorem invGo_sub {l : List Entry} {s s' : KPC} (h : InvGo l s)
    (hd : (idsOf s'.deferred).Sublist (idsOf s.deferred))
    (hp : (idsOf s'.pending).Sublist (idsOf s.pending))
    (hh : (idsOf s'.hit).Sublist (idsOf s.hit))
    (hn : s.nextId ≤ s'.nextId)
    (hc : s'.completions = s.completions) : InvGo l s' := by
  have hall : (allIds s').Sublist (allIds s) := (hd.append hp).append hh
  refine ⟨?_, ?_, ?_, ?_, hc ▸ h.compNodup⟩
  · exact List.Nodup.sublist (hall.append_left (idsOf l)) h.nodup
  · intro i hi
    have : i ∈ idsOf l ++ allIds s := by
      rcases List.mem_append.1 hi with h1 | h1
      · exact List.mem_append_left _ h1
      · exact List.mem_append_right _ (hall.subset h1)
    exact lt_of_lt_of_le (h.bounded i this) hn
  · intro i hi
    exact lt_of_lt_of_le (h.compBound i (hc ▸ hi)) hn
  · intro i hi
    rcases h.compFresh i (hc ▸ hi) with ⟨h1, h2, h3⟩
    exact ⟨h1, fun q => h2 (hd.subset q), fun q => h3 (hp.subset q)⟩

theorem inv_kpc_probe_work (eid : Nat) {s : KPC} (h : KpcInv s) :
    KpcInv (kpc_probe_work eid s) := by
  rcases hrf : removeFirst eid s.pending with ⟨o, P'⟩
  rw [kpc_probe_work, hrf]
  cases o with
  | none => exact h
  | some e =>
    have hperm : s.pending.Perm (e :: P') := removeFirst_perm hrf
    have heid : e.eid = eid := removeFirst_eid hrf
    have hsub : P'.Sublist s.pending := by
      have := removeFirst_sublist eid s.pending
      rwa [hrf] at this
    have hP : (idsOf s.pending).Perm (e.eid :: idsOf P') := by
      simpa [idsOf] using hperm.map Entry.eid
    have hePend : e.eid ∈ idsOf s.pending :=
      List.mem_map_of_mem Entry.eid (hperm.mem_iff.2 (List.mem_cons_self e P'))
    have hnd : ((idsOf s.deferred ++ idsOf s.pending) ++ idsOf s.hit).Nodup :=
      h.nodup
    have hndDP : (idsOf s.deferred ++ idsOf s.pending).Nodup :=
      (List.nodup_append.1 hnd).1
    have heNotD : e.eid ∉ idsOf s.deferred := by
      intro q
      exact List.disjoint_of_nodup_append hndDP q hePend
    have heNotP' : e.eid ∉ idsOf P' := by
      have hPnd : (idsOf s.pending).Nodup := (List.nodup_append.1 hndDP).2.1
      have := hP.nodup hPnd
      exact (List.nodup_cons.1 this).1
    have hmain : (allIds { s with
        pending := P',
        hit := s.hit ++ [e],
        unreg := s.unreg ++ [eid],
        completions := s.completions ++ [eid] }).Perm (allIds s) := by
      simp only [allIds, idsOf, List.map_append, List.map_cons, List.map_nil,
        List.append_assoc, List.cons_append, List.nil_append]
      have h1 : (List.map Entry.eid P' ++
          (List.map Entry.eid s.hit ++ [e.eid])).Perm
          (List.map Entry.eid s.pending ++ List.map Entry.eid s.hit) := by
        refine ((List.Perm.append_left _
          (List.perm_append_singleton _ _)).trans List.perm_middle).trans ?_
        have := (hP.append_right (List.map Entry.eid s.hit)).symm
        simpa [idsOf, List.cons_append] using this
      exact List.Perm.append_left _ h1
    refine ⟨?_, ?_, ?_, ?_, ?_⟩
    · exact (hmain.nodup_iff).2 h.nodup
    · intro i hi
      have hi' : i ∈ allIds s := hmain.subset (by simpa [idsOf] using hi)
      exact h.bounded i (List.mem_append_right _ hi')
    · intro i hi
      rcases List.mem_append.1 hi with h1 | h1
      · exact h.compBound i h1
      · have hieq : i = eid := by simpa using h1
        rw [hieq]
        exact h.bounded eid (List.mem_append_right _
          (mem_allIds_pending (heid ▸ hePend)))
    · intro i hi
      rcases List.mem_append.1 hi with h1 | h1
      · rcases h.compFresh i h1 with ⟨q1, q2, q3⟩
        refine ⟨q1, q2, ?_⟩
        intro q
        exact q3 ((hsub.map Entry.eid).subset q)
      · have hieq : i = eid := by simpa using h1
        rw [hieq]
        exact ⟨by simp [idsOf], heid ▸ heNotD, heid ▸ heNotP'⟩
    · rw [List.nodup_append]
      refine ⟨h.compNodup, List.nodup_singleton _, ?_⟩
      intro a ha hmem
      have haeq : a = eid := by simpa using hmem
      exact (h.compFresh a ha).2.2 (haeq.symm ▸ (heid ▸ hePend))

theorem inv_kpc_handle_going (n : String) {s : KPC} (h : KpcInv s) :
    KpcInv (kpc_handle_going_module n s) := by
  refine invGo_sub h ?_ ?_ ?_ (le_refl _) ?_
  · exact List.Sublist.refl _
  · exact (List.filter_sublist _).map _
  · exact List.Sublist.refl _
  · rfl

theorem inv_consume {s : KPC} (h : KpcInv s) : KpcInv (kpc_show_read s).2 := by
  rw [kpc_show_read, kpc_unlink_next]
  cases hh : s.hit with
  | nil => exact h
  | cons e rest =>
    refine invGo_sub h ?_ ?_ ?_ (le_refl _) ?_
    · exact List.Sublist.refl _
    · exact List.Sublist.refl _
    · show (idsOf rest).Sublist (idsOf s.hit)
      rw [hh]
      simp only [idsOf, List.map_cons]
      exact List.sublist_cons_self _ _
    · rfl

theorem kpc_clear_list_eq (b : Bool) :
    ∀ (l : List Entry) (s : KPC),
      kpc_clear_list b l s =
        { s with freed := s.freed ++ idsOf l,
                 unreg := if b then s.unreg ++ idsOf l else s.unreg } := by
  intro l
  induction l with
  | nil =>
    intro s
    cases b <;> simp [kpc_clear_list, idsOf]
  | cons e rest ih =>
    intro s
    cases b <;> simp [kpc_clear_list, ih, idsOf]

theorem kpc_clear_eq (s : KPC) :
    kpc_clear s =
      { s with deferred := [], pending := [], hit := [],
               freed := s.freed ++ (idsOf s.deferred ++
                 (idsOf s.hit ++ idsOf s.pending)),
               unreg := s.unreg ++ (idsOf s.hit ++ idsOf s.pending) } := by
  simp [kpc_clear, kpc_clear_list_eq]

theorem inv_kpc_clear {s : KPC} (h : KpcInv s) : KpcInv (kpc_clear s) := by
  rw [kpc_clear_eq]
  refine invGo_sub h ?_ ?_ ?_ (le_refl _) rfl
  · exact List.nil_sublist _
  · exact List.nil_sublist _
  · exact List.nil_sublist _

/-- Moving the head of the in-flight list onto pending (with an updated
address but the same identity) preserves the generalised invariant. -/
theorem invGo_move_to_pending {e : Entry} {l : List Entry} {s : KPC}
    (h : InvGo (e :: l) s) (e' : Entry) (he : e'.eid = e.eid) :
    InvGo l { s with pending := e' :: s.pending } := by
  have hperm : (idsOf l ++ allIds { s with pending := e' :: s.pending }).Perm
      (idsOf (e :: l) ++ allIds s) := by
    simp only [allIds, idsOf, List.map_cons, he, List.cons_append,
      List.append_assoc]
    exact (perm_pull e.eid _ _ _).trans (List.Perm.refl _)
  refine ⟨?_, ?_, h.compBound, ?_, h.compNodup⟩
  · exact (hperm.nodup_iff).2 h.nodup
  · intro i hi
    exact h.bounded i (hperm.subset hi)
  · intro i hi
    rcases h.compFresh i hi with ⟨h1, h2, h3⟩
    have hne : i ≠ e.eid := by
      intro q
      exact h1 (by simp [idsOf, q])
    have hnl : i ∉ idsOf l := by
      intro q
      exact h1 (by simp [idsOf] at q ⊢; exact Or.inr q)
    refine ⟨hnl, h2, ?_⟩
    simp only [idsOf, List.map_cons, List.mem_cons, he]
    rintro (q | q)
    · exact hne q
    · exact h3 (by simpa [idsOf] using q)

/-- Re-appending a non-matching in-flight entry at the tail of the
deferred list preserves the generalised invariant. -/
theorem invGo_back_to_deferred {e : Entry} {l : List Entry} {s : KPC}
    (h : InvGo (e :: l) s) :
    InvGo l { s with deferred := s.deferred ++ [e] } := by
  have hperm : (idsOf l ++ allIds { s with deferred := s.deferred ++ [e] }).Perm
      (idsOf (e :: l) ++ allIds s) := by
    simp only [allIds, idsOf, List.map_cons, List.map_append, List.map_nil,
      List.cons_append, List.append_assoc, List.singleton_append]
    exact perm_pull e.eid _ _ _
  refine ⟨?_, ?_, h.compBound, ?_, h.compNodup⟩
  · exact (hperm.nodup_iff).2 h.nodup
  · intro i hi
    exact h.bounded i (hperm.subset hi)
  · intro i hi
    rcases h.compFresh i hi with ⟨h1, h2, h3⟩
    have hne : i ≠ e.eid := by
      intro q
      exact h1 (by simp [idsOf, q])
    have hnl : i ∉ idsOf l := by
      intro q
      exact h1 (by simp [idsOf] at q ⊢; exact Or.inr q)
    refine ⟨hnl, ?_, h3⟩
    simp only [idsOf, List.map_append, List.map_cons, List.map_nil,
      List.mem_append, List.mem_cons, List.not_mem_nil, or_false]
    rintro (q | q)
    · exact h2 (by simpa [idsOf] using q)
    · exact hne q

theorem invGo_comingGo (cks base : Nat) (arm : Nat → Bool × Bool) :
    ∀ (l : List Entry) (s : KPC), InvGo l s →
      KpcInv (comingGo cks base arm l s) := by
  intro l
  induction l with
  | nil => intro s h; exact h
  | cons e rest ih =>
    intro s h
    rw [comingGo]
    by_cases hm : e.module_checksum = cks
    · rw [if_pos hm]
      rcases harm : arm e.eid with ⟨rOk, enOk⟩
      cases rOk with
      | false =>
        apply ih
        have h1 : InvGo rest s := invGo_weaken h
        refine invGo_congr ?_ ?_ ?_ ?_ ?_ h1 <;> rfl
      | true =>
        cases enOk with
        | true =>
          apply ih
          have h1 : InvGo rest { s with pending :=
              { e with base_addr := base % U64,
                       kp_addr := (e.kp_addr + base % U64) % U64 } ::
                s.pending } :=
            invGo_move_to_pending h _ rfl
          refine invGo_congr ?_ ?_ ?_ ?_ ?_ h1 <;> rfl
        | false =>
          apply ih
          have h1 : InvGo rest { s with pending :=
              { e with base_addr := base % U64,
                       kp_addr := (e.kp_addr + base % U64) % U64 } ::
                s.pending } :=
            invGo_move_to_pending h _ rfl
          refine invGo_congr ?_ ?_ ?_ ?_ ?_ h1 <;> rfl
    · rw [if_neg hm]
      exact ih _ (invGo_back_to_deferred h)

theorem inv_kpc_handle_coming (n : String) (base : Nat)
    (arm : Nat → Bool × Bool) {s : KPC} (h : KpcInv s) :
    KpcInv (kpc_handle_coming_module n base arm s) := by
  rw [kpc_handle_coming_module]
  apply invGo_comingGo
  refine ⟨?_, ?_, h.compBound, ?_, h.compNodup⟩
  · have hn := h.nodup
    simp only [idsOf, allIds, List.map_nil, List.nil_append,
      List.append_assoc] at hn ⊢
    exact hn
  · intro i hi
    apply h.bounded
    simp only [idsOf, allIds, List.map_nil, List.nil_append,
      List.append_assoc] at hi ⊢
    exact hi
  · intro i hi
    rcases h.compFresh i hi with ⟨_, h2, h3⟩
    exact ⟨h2, by simp [idsOf], h3⟩

theorem inv_step (s : KPC) (e : Event) (h : KpcInv s) : KpcInv (step s e) := by
  cases e with
  | add mn mb off a r en => exact inv_kpc_add_probe mn mb off a r en h
  | coming n b arm => exact inv_kpc_handle_coming n b arm h
  | going n => exact inv_kpc_handle_going n h
  | fire eid => exact inv_kpc_probe_work eid h
  | consume => exact inv_consume h
  | clear => exact inv_kpc_clear h

theorem inv_kpc_init : KpcInv kpc_init := by
  refine ⟨?_, ?_, ?_, ?_, ?_⟩ <;> simp [allIds, idsOf, kpc_init]

theorem inv_run (es : List Event) : KpcInv (run es) := by
  rw [run]
  have : ∀ (l : List Event) (s : KPC), KpcInv s → KpcInv (l.foldl step s) := by
    intro l
    induction l with
    | nil => intro s h; exact h
    | cons e rest ih => intro s h; exact ih _ (inv_step s e h)
  exact this es kpc_init inv_kpc_init

set_option maxRecDepth 100000

/-- C1: a probe added for module "mymod" at offset 0x10 while "mymod" is
absent sits in Deferred with fingerprint crc32("mymod") and base address
0; when "mymod" arrives at base 0x1000 it moves to Pending with absolute
instrumented address 0x1010; after it fires and is consumed the readout
reports fingerprint crc32("mymod") and the relative offset 0x10, not the
absolute address. -/
theorem defer_resolve_roundtrip :
    (run [Event.add (some "mymod") none 16 true true true]).deferred =
      [{ eid := 0, module_checksum := get_name_checksum (some "mymod"),
         base_addr := 0, kp_addr := 16 }] ∧
    (run [Event.add (some "mymod") none 16 true true true,
          Event.coming "mymod" 4096 (fun _ => (true, true))]).deferred = [] ∧
    (run [Event.add (some "mymod") none 16 true true true,
          Event.coming "mymod" 4096 (fun _ => (true, true))]).pending =
      [{ eid := 0, module_checksum := get_name_checksum (some "mymod"),
         base_addr := 4096, kp_addr := 4112 }] ∧
    (kpc_show_read (run [Event.add (some "mymod") none 16 true true true,
          Event.coming "mymod" 4096 (fun _ => (true, true)),
          Event.fire 0])).1 =
      some (get_name_checksum (some "mymod"), 16) := by
  refine ⟨?_, ?_, ?_, ?_⟩ <;> rfl

/-- C2: over every event sequence, the fire-completion path runs at most
once per record (its completion log never repeats an identity), and the
unregister / requeue surgery lives only in the deferred work item
(kpc_probe_work), never inline in the fire callback (kpc_pre_handler),
whose body only schedules the work. -/
theorem fire_completion_at_most_once :
    (∀ (es : List Event) (i : Nat), ((run es).completions.count i) ≤ 1) ∧
    kpc_pre_handler_ops = [PrimOp.scheduleWork] ∧
    PrimOp.unregisterKprobe ∉ kpc_pre_handler_ops ∧
    PrimOp.unregisterKprobe ∈ kpc_probe_work_ops := by
  refine ⟨?_, rfl, by decide, by decide⟩
  intro es i
  exact List.nodup_iff_count_le_one.1 (inv_run es).compNodup i

/-- C3: evaluation at the failing input: an add for a loaded module whose
register_kprobe succeeds and whose enable_kprobe fails leaves the freed
record (eid 0) still linked in the Pending collection, so a freed record
is reachable from a collection at a quiescent point. -/
theorem freed_record_reachable_from_pending :
    (run [Event.add (some "mymod") (some 4096) 16 true true false]).pending.map
        Entry.eid = [0] ∧
    (run [Event.add (some "mymod") (some 4096) 16 true true false]).freed =
      [0] ∧
    (run [Event.add (some "mymod") (some 4096) 16 true true false]).deferred =
      [] ∧
    (run [Event.add (some "mymod") (some 4096) 16 true true false]).hit = [] := by
  refine ⟨?_, ?_, ?_, ?_⟩ <;> rfl

/-- C4: evaluation at the failing input: when register succeeds and
enable fails the record is freed (eid 0 logged) yet remains linked in
Pending — it does not leave the collection as the claim requires; the
register-failure path by contrast frees the record without it ever
entering Pending. -/
theorem arm_enable_failure_remains_in_pending :
    (run [Event.add none none 16 true true false]).pending.map Entry.eid =
      [0] ∧
    (run [Event.add none none 16 true true false]).freed = [0] ∧
    (run [Event.add none none 16 true false true]).pending = [] ∧
    (run [Event.add none none 16 true false true]).freed = [0] := by
  refine ⟨?_, ?_, ?_, ?_⟩ <;> rfl

/-- C5: evaluation at the failing input: when module "mymod" departs, its
Pending record (eid 0) is unregistered and unlinked from Pending, but it
is never freed — the freed log stays empty while the record is no longer
reachable from any collection (a leak), contradicting "destroyed
(freed)". -/
theorem going_module_leaks_pending_record :
    (run [Event.add (some "mymod") (some 4096) 16 true true true,
        Event.going "mymod"]).pending = [] ∧
    (run [Event.add (some "mymod") (some 4096) 16 true true true,
        Event.going "mymod"]).unreg = [0] ∧
    (run [Event.add (some "mymod") (some 4096) 16 true true true,
        Event.going "mymod"]).freed = [] ∧
    (run [Event.add (some "mymod") (some 4096) 16 true true true,
        Event.going "mymod"]).deferred = [] ∧
    (run [Event.add (some "mymod") (some 4096) 16 true true true,
        Event.going "mymod"]).hit = [] := by
  refine ⟨?_, ?_, ?_, ?_, ?_⟩ <;> rfl

/-- C6: evaluation at the failing input: when allocation of the probe
record fails during an add, kpc_add_probe (which returns void, so no
out-of-memory failure can reach the control-write caller) passes the
NULL record on and dereferences it — the nullDeref flag records the
dereference the C code performs via list_add / register_kprobe on the
null entry. -/
theorem add_alloc_failure_derefs_null :
    (run [Event.add (some "mymod") none 16 false true true]).nullDeref =
      true ∧
    (run [Event.add (some "mymod") none 16 false true true]).deferred = [] ∧
    (run [Event.add (some "mymod") none 16 false true true]).pending = [] := by
  refine ⟨?_, ?_, ?_⟩ <;> rfl

/-- C7: clear empties all three collections and frees every record on
them (deferred first, then hit, then pending); only the hit and pending
records are unregistered, the deferred ones are not; afterwards a read
finds no hit, and a subsequent successful add followed by its fire
produces exactly one new hit, whatever the pre-clear state was. -/
theorem kpc_clear_total (s : KPC) (off : Nat) :
    (kpc_clear s).deferred = [] ∧ (kpc_clear s).pending = [] ∧
    (kpc_clear s).hit = [] ∧
    (kpc_clear s).freed = s.freed ++ (idsOf s.deferred ++
      (idsOf s.hit ++ idsOf s.pending)) ∧
    (kpc_clear s).unreg = s.unreg ++ (idsOf s.hit ++ idsOf s.pending) ∧
    (kpc_show_read (kpc_clear s)).1 = none ∧
    (kpc_probe_work s.nextId
        (kpc_add_probe none none off true true true (kpc_clear s))).hit.map
      Entry.eid = [s.nextId] := by
  rw [kpc_clear_eq]
  refine ⟨rfl, rfl, rfl, rfl, rfl, rfl, ?_⟩
  simp [kpc_add_probe, kpc_new_entry, kpc_enable_probe, kpc_probe_work,
    removeFirst]

/-- C7 witness: the clear-totality theorem applied to a concrete state
with one record in each collection. -/
theorem kpc_clear_total_witness :
    (kpc_clear sampleFullState).deferred = [] ∧
    (kpc_clear sampleFullState).pending = [] ∧
    (kpc_clear sampleFullState).hit = [] ∧
    (kpc_clear sampleFullState).freed = sampleFullState.freed ++
      (idsOf sampleFullState.deferred ++ (idsOf sampleFullState.hit ++
        idsOf sampleFullState.pending)) ∧
    (kpc_clear sampleFullState).unreg = sampleFullState.unreg ++
      (idsOf sampleFullState.hit ++ idsOf sampleFullState.pending) ∧
    (kpc_show_read (kpc_clear sampleFullState)).1 = none ∧
    (kpc_probe_work sampleFullState.nextId
        (kpc_add_probe none none 16 true true true
          (kpc_clear sampleFullState))).hit.map Entry.eid =
      [sampleFullState.nextId] :=
  kpc_clear_total sampleFullState 16

/-- C8: hit delivery is FIFO in completion order: completing a then b
(two distinct armed records, empty hit queue) appends them in that order
at the tail of the hit queue, and the consumer pops the head, so the
first readout reports a and the second reports b. -/
theorem hit_fifo (s : KPC) (a b : Entry)
    (ha : a ∈ s.pending) (hb : b ∈ s.pending) (hne : a.eid ≠ b.eid)
    (hnd : (idsOf s.pending).Nodup) (hhit : s.hit = []) :
    (kpc_probe_work b.eid (kpc_probe_work a.eid s)).hit = [a, b] ∧
    (kpc_show_read (kpc_probe_work b.eid (kpc_probe_work a.eid s))).1 =
      some (a.module_checksum, (a.kp_addr + U64 - a.base_addr) % U64) ∧
    (kpc_show_read ((kpc_show_read (kpc_probe_work b.eid
        (kpc_probe_work a.eid s))).2)).1 =
      some (b.module_checksum, (b.kp_addr + U64 - b.base_addr) % U64) := by
  rcases hrf : removeFirst a.eid s.pending with ⟨o, P'⟩
  have ho : o = some a := by
    have h0 := removeFirst_of_mem hnd ha
    rw [hrf] at h0
    exact h0
  subst ho
  have hperm : s.pending.Perm (a :: P') := removeFirst_perm hrf
  have hbP' : b ∈ P' := by
    rcases List.mem_cons.1 (hperm.mem_iff.1 hb) with h1 | h1
    · exact absurd (congrArg Entry.eid h1).symm hne
    · exact h1
  have hmapperm : (idsOf s.pending).Perm (a.eid :: idsOf P') := by
    simpa [idsOf] using hperm.map Entry.eid
  have hndP' : (idsOf P').Nodup := (List.nodup_cons.1 (hmapperm.nodup hnd)).2
  have hs1 : kpc_probe_work a.eid s =
      { s with pending := P', hit := s.hit ++ [a],
               unreg := s.unreg ++ [a.eid],
               completions := s.completions ++ [a.eid] } := by
    rw [kpc_probe_work, hrf]
  rcases hrf2 : removeFirst b.eid P' with ⟨o2, P''⟩
  have ho2 : o2 = some b := by
    have h0 := removeFirst_of_mem hndP' hbP'
    rw [hrf2] at h0
    exact h0
  subst ho2
  have hs2 : kpc_probe_work b.eid (kpc_probe_work a.eid s) =
      { s with pending := P'', hit := (s.hit ++ [a]) ++ [b],
               unreg := (s.unreg ++ [a.eid]) ++ [b.eid],
               completions := (s.completions ++ [a.eid]) ++ [b.eid] } := by
    rw [hs1, kpc_probe_work]
    rw [hrf2]
  rw [hs2, hhit]
  refine ⟨rfl, rfl, rfl⟩

/-- C8 witness: the FIFO theorem applied to a concrete state with two
pending records. -/
theorem hit_fifo_witness :
    (entryA ∈ sampleState.pending ∧ entryB ∈ sampleState.pending ∧
      entryA.eid ≠ entryB.eid ∧ (idsOf sampleState.pending).Nodup ∧
      sampleState.hit = []) ∧
    ((kpc_probe_work entryB.eid (kpc_probe_work entryA.eid
        sampleState)).hit = [entryA, entryB] ∧
      (kpc_show_read (kpc_probe_work entryB.eid (kpc_probe_work entryA.eid
          sampleState))).1 =
        some (entryA.module_checksum,
          (entryA.kp_addr + U64 - entryA.base_addr) % U64) ∧
      (kpc_show_read ((kpc_show_read (kpc_probe_work entryB.eid
          (kpc_probe_work entryA.eid sampleState))).2)).1 =
        some (entryB.module_checksum,
          (entryB.kp_addr + U64 - entryB.base_addr) % U64)) :=
  ⟨⟨by decide, by decide, by decide, by decide, rfl⟩,
    hit_fifo sampleState entryA entryB (by decide) (by decide) (by decide)
      (by decide) rfl⟩

/-- C9: a malformed, non-empty, non-clear control line (one whose address
text does not parse as a complete hex number) is silently skipped and
processing continues with the next line; concretely the blob
"notanumber\nmymod:0x10\n" yields no command for the first line and
exactly the add of module "mymod" at offset 0x10 for the second, and
running that add (module absent, allocation succeeding) records the
probe with fingerprint crc32("mymod") and address 0x10. -/
theorem malformed_line_skipped
    (t : List Char) (rest : List (List Char))
    (hne : t ≠ []) (hnc : t ≠ "clear".data) (hml : parseLine t = none) :
    processTokens (t :: rest) = processTokens rest ∧
    kpc_control_write_cmds ("notanumber\nmymod:0x10\n".data) =
      [Cmd.add (some "mymod") 16] ∧
    (run [Event.add (some "mymod") none 16 true true true]).deferred.map
      (fun e => (e.module_checksum, e.kp_addr)) =
      [(get_name_checksum (some "mymod"), 16)] := by
  refine ⟨?_, by decide, ?_⟩
  · cases rest with
    | nil => rfl
    | cons r rs =>
      rw [processTokens, if_neg hne, if_neg hnc, hml]
      exact fun q => List.noConfusion q
  · rfl

/-- C9 witness: the skip theorem applied to the malformed line
"notanumber" followed by the well-formed line "mymod:0x10". -/
theorem malformed_line_skipped_witness :
    ("notanumber".data ≠ [] ∧ "notanumber".data ≠ "clear".data ∧
      parseLine ("notanumber".data) = none) ∧
    (processTokens ("notanumber".data :: ["mymod:0x10".data, []]) =
        processTokens ["mymod:0x10".data, []] ∧
      kpc_control_write_cmds ("notanumber\nmymod:0x10\n".data) =
        [Cmd.add (some "mymod") 16] ∧
      (run [Event.add (some "mymod") none 16 true true true]).deferred.map
        (fun e => (e.module_checksum, e.kp_addr)) =
        [(get_name_checksum (some "mymod"), 16)]) :=
  ⟨⟨by decide, by decide, by decide⟩,
    malformed_line_skipped "notanumber".data ["mymod:0x10".data, []]
      (by decide) (by decide) (by decide)⟩

/-- C10: an empty strsep token — including the empty token a CRLF line
ending produces between its '\r' and '\n' — stops control-write
processing: no token after it contributes any command; concretely the
blob "10\r\nclear\n" issues only the add from its first line and never
executes the well-formed clear that follows the CRLF. -/
theorem empty_line_stops_processing :
    (∀ rest : List (List Char), processTokens ([] :: rest) = []) ∧
    kpc_control_write_cmds ("10\r\nclear\n".data) = [Cmd.add none 16] := by
  refine ⟨?_, by decide⟩
  intro rest
  cases rest with
  | nil => rfl
  | cons r rs => rfl
